import Mathlib

/-!
Verification of the misery-rs cache store (src/src/lib.rs).

The store `MiseryHandler<K, V>` keeps an `Arc<RwLock<HashSet<CacheWrapper<K, V>>>>`
together with a file path.  We shallowly embed the in-memory collection as a
duplicate-free list of `CacheWrapper` records: `HashSet::insert` becomes
insert-if-absent under full structural equality, `retain` becomes `List.filter`,
and iteration-based `find` becomes `List.find?`.  The backing file is embedded
as the decoded sequence of entries (the serde_json codec is an external
collaborator of the repository; per the spec it is an exact encode/decode pair,
so the file content is represented by the entry sequence it decodes to, and a
failed decode by `Option.none`).
-/

/-- The `CacheWrapper<K, V>` struct of the source: a key/value record.
Structural equality (`Eq + PartialEq` derive) compares both fields. -/
structure CacheWrapper (K V : Type) where
  key : K
  value : V
deriving DecidableEq

namespace CacheWrapper

/-- `CacheWrapper::new(key, value)`. -/
def new (key : K) (value : V) : CacheWrapper K V := ⟨key, value⟩

/-- `CacheWrapper::rebase_key(self, rebase)`: returns the wrapper with the key
field replaced. -/
def rebase_key (c : CacheWrapper K V) (rebase : K) : CacheWrapper K V :=
  { c with key := rebase }

/-- `CacheWrapper::rebase_value(self, rebase)`: returns the wrapper with the
value field replaced. -/
def rebase_value (c : CacheWrapper K V) (rebase : V) : CacheWrapper K V :=
  { c with value := rebase }

end CacheWrapper

/-- The in-memory collection of a `MiseryHandler`: the `HashSet<CacheWrapper<K, V>>`
behind the lock, embedded as a duplicate-free list (element order models the
unspecified iteration order of the hash set). -/
abbrev Caches (K V : Type) : Type := List (CacheWrapper K V)

namespace MiseryHandler

variable {K V : Type} [DecidableEq K] [DecidableEq V]

/-- `MiseryHandler::push`: `self.caches.write().await.insert(cache)`.
`HashSet::insert` adds the element unless an equal element (full structural
equality on the pair) is already present. -/
def push (s : Caches K V) (cache : CacheWrapper K V) : Caches K V :=
  if cache ∈ s then s else cache :: s

/-- `MiseryHandler::remove`: `self.caches.write().await.retain(|cache| cache.as_ref_key() != key)`. -/
def remove (s : Caches K V) (key : K) : Caches K V :=
  s.filter (fun c => decide (¬ c.key = key))

/-- `MiseryHandler::abs` (the replace operation): `self.remove(cache.as_ref_key()).await; self.push(cache).await`. -/
def abs (s : Caches K V) (cache : CacheWrapper K V) : Caches K V :=
  push (remove s cache.key) cache

/-- `MiseryHandler::find`: iterate, find the first entry whose key equals `key`,
clone it. -/
def find (s : Caches K V) (key : K) : Option (CacheWrapper K V) :=
  s.find? (fun c => decide (c.key = key))

/-- `MiseryHandler::find_value`: iterate, find the first entry whose key equals
`key`, project its value. -/
def find_value (s : Caches K V) (key : K) : Option V :=
  (s.find? (fun c => decide (c.key = key))).map (fun c => c.value)

/-- `MiseryHandler::all_items`: snapshot clone of every entry currently held. -/
def all_items (s : Caches K V) : List (CacheWrapper K V) :=
  s

/-- `MiseryHandler::write` (flush): serializes the current collection as one
sequence (`self.caches.read().await.iter().collect::<Vec<_>>()`) and overwrites
the file with its encoding.  The file is embedded by the sequence it decodes
to, so flushing yields the collection as a list. -/
def write (s : Caches K V) : List (CacheWrapper K V) :=
  s

/-- `MiseryHandler::load_from_blocking`: reads the file and decodes it with
`serde_json::from_str::<HashSet<_>>(..).unwrap_or_default()`.  The argument is
the decode result: `some entries` for a well-formed file (deserializing a
sequence into a `HashSet` inserts each element in turn), `none` for a decode
failure (malformed or empty content), which `unwrap_or_default` turns into the
empty collection. -/
def load_from_blocking (decoded : Option (List (CacheWrapper K V))) : Caches K V :=
  match decoded with
  | some entries => entries.foldl push []
  | none => []

/-- Key uniqueness: the collection holds no two entries with equal keys. -/
abbrev uniqueKeys (s : Caches K V) : Prop :=
  s.Pairwise (fun a b => a.key ≠ b.key)

/-- The public mutating operations of the store, for stating properties of
operation sequences. -/
inductive StoreOp (K V : Type) where
  | pushOp (cache : CacheWrapper K V)
  | absOp (cache : CacheWrapper K V)
  | removeOp (key : K)
deriving DecidableEq

/-- Whether an operation is a bare push. -/
def StoreOp.isPush : StoreOp K V → Bool
  | .pushOp _ => true
  | _ => false

/-- Apply one public mutating operation to the collection. -/
def applyOp (s : Caches K V) : StoreOp K V → Caches K V
  | .pushOp c => push s c
  | .absOp c => abs s c
  | .removeOp k => remove s k

/-- Run a sequence of public mutating operations left to right. -/
def runOps (s : Caches K V) (ops : List (StoreOp K V)) : Caches K V :=
  ops.foldl applyOp s

/-- One atomic step of execution: each constructor corresponds to one
acquisition and release of the RwLock in the source (`push` and `remove` each
take the write lock once; `find` takes the read lock once).  `abs` is NOT a
single step: its body performs `remove` and then `push`, each locking
separately. -/
inductive AtomicOp (K V : Type) where
  | pushA (cache : CacheWrapper K V)
  | removeA (key : K)
  | findA (key : K)
deriving DecidableEq

/-- Run a schedule of atomic steps, returning the final collection and the
list of observations made by the `findA` steps, in order. -/
def runTrace (s : Caches K V) : List (AtomicOp K V) → Caches K V × List (Option (CacheWrapper K V))
  | [] => (s, [])
  | .pushA c :: rest => runTrace (push s c) rest
  | .removeA k :: rest => runTrace (remove s k) rest
  | .findA k :: rest =>
    let r := runTrace s rest
    (r.1, find s k :: r.2)

/-- The atomic steps that `MiseryHandler::abs` compiles to: its body is
`self.remove(cache.as_ref_key()).await; self.push(cache).await`, two separate
write-lock acquisitions. -/
def absSteps (cache : CacheWrapper K V) : List (AtomicOp K V) :=
  [.removeA cache.key, .pushA cache]

end MiseryHandler

/-- `IsInterleaving xs ys zs`: the schedule `zs` is a merge of the schedules
`xs` and `ys` that keeps the relative order of the steps within each. -/
inductive IsInterleaving {α : Type} : List α → List α → List α → Prop
  | nil : IsInterleaving [] [] []
  | left {x : α} {xs ys zs : List α} :
      IsInterleaving xs ys zs → IsInterleaving (x :: xs) ys (x :: zs)
  | right {y : α} {xs ys zs : List α} :
      IsInterleaving xs ys zs → IsInterleaving xs (y :: ys) (y :: zs)

namespace CacheWrapper

variable {K V : Type}

@[simp] theorem new_key (k : K) (v : V) : (new k v).key = k := rfl

@[simp] theorem new_value (k : K) (v : V) : (new k v).value = v := rfl

end CacheWrapper

namespace MiseryHandler

variable {K V : Type} [DecidableEq K] [DecidableEq V]

theorem mem_push {s : Caches K V} {c e : CacheWrapper K V} :
    e ∈ push s c ↔ e = c ∨ e ∈ s := by
  unfold push
  by_cases h : c ∈ s
  · rw [if_pos h]
    constructor
    · exact Or.inr
    · rintro (rfl | he)
      · exact h
      · exact he
  · rw [if_neg h]
    exact List.mem_cons

theorem mem_remove {s : Caches K V} {k : K} {e : CacheWrapper K V} :
    e ∈ remove s k ↔ e ∈ s ∧ e.key ≠ k := by
  simp [remove, List.mem_filter]

theorem abs_eq_cons (s : Caches K V) (c : CacheWrapper K V) :
    abs s c = c :: remove s c.key := by
  unfold abs push
  rw [if_neg]
  intro h
  exact (mem_remove.mp h).2 rfl

theorem remove_remove (s : Caches K V) (k : K) :
    remove (remove s k) k = remove s k := by
  unfold remove
  rw [List.filter_filter]
  simp

theorem remove_cons_of_key {c : CacheWrapper K V} {k : K} (s : Caches K V) (h : c.key = k) :
    remove (c :: s) k = remove s k := by
  simp [remove, List.filter_cons, h]

theorem find_remove_self (s : Caches K V) (k : K) :
    find (remove s k) k = none := by
  unfold find
  rw [List.find?_eq_none]
  intro c hc
  simp only [decide_eq_true_eq]
  exact (mem_remove.mp hc).2

theorem countP_remove_self (s : Caches K V) (k : K) :
    (remove s k).countP (fun c => decide (c.key = k)) = 0 := by
  rw [List.countP_eq_zero]
  intro c hc
  simp only [decide_eq_true_eq]
  exact (mem_remove.mp hc).2

theorem abs_abs_same_key (s : Caches K V) (k : K) (v1 v2 : V) :
    abs (abs s (CacheWrapper.new k v1)) (CacheWrapper.new k v2)
      = CacheWrapper.new k v2 :: remove s k := by
  rw [abs_eq_cons, abs_eq_cons]
  simp only [CacheWrapper.new_key]
  rw [remove_cons_of_key _ (CacheWrapper.new_key k v1), remove_remove]

/-- C1: for every key k and values v1 ≠ v2, from any store state, replacing
(k, v1) and then (k, v2) makes `find_value k` return exactly v2 and leaves
exactly one entry with key k in `all_items`. -/
theorem replace_replace_unique (s : Caches K V) (k : K) (v1 v2 : V) (hne : v1 ≠ v2) :
    find_value (abs (abs s (CacheWrapper.new k v1)) (CacheWrapper.new k v2)) k = some v2 ∧
    (all_items (abs (abs s (CacheWrapper.new k v1)) (CacheWrapper.new k v2))).countP
      (fun c => decide (c.key = k)) = 1 := by
  rw [abs_abs_same_key]
  constructor
  · unfold find_value
    rw [List.find?_cons_of_pos]
    · rfl
    · simp
  · unfold all_items
    rw [List.countP_cons_of_pos, countP_remove_self]
    simp

theorem replace_replace_unique_witness :
    (1 : Nat) ≠ 2 ∧
    (find_value (abs (abs ([CacheWrapper.new 5 9] : Caches Nat Nat) (CacheWrapper.new 0 1))
        (CacheWrapper.new 0 2)) 0 = some 2 ∧
      (all_items (abs (abs ([CacheWrapper.new 5 9] : Caches Nat Nat) (CacheWrapper.new 0 1))
        (CacheWrapper.new 0 2))).countP (fun c => decide (c.key = 0)) = 1) :=
  ⟨by decide, replace_replace_unique [CacheWrapper.new 5 9] 0 1 2 (by decide)⟩

/-- C3: pushing an entry that is already present (equal key and value) leaves
the collection unchanged, and pushing an entry whose key is present with a
different value neither removes nor overwrites the existing entry. -/
theorem push_duplicate_noop_no_overwrite (s : Caches K V) (c : CacheWrapper K V) :
    (c ∈ s → push s c = s) ∧
    (∀ e ∈ s, e.key = c.key → e ≠ c → e ∈ push s c) := by
  constructor
  · intro h
    unfold push
    rw [if_pos h]
  · intro e he _ _
    exact mem_push.mpr (Or.inr he)

theorem push_duplicate_noop_no_overwrite_witness :
    (push [CacheWrapper.new 0 1] (CacheWrapper.new (0 : Nat) (1 : Nat))
      = [CacheWrapper.new 0 1]) ∧
    CacheWrapper.new (0 : Nat) (1 : Nat) ∈ push [CacheWrapper.new 0 1] (CacheWrapper.new 0 2) :=
  ⟨(push_duplicate_noop_no_overwrite [CacheWrapper.new 0 1] (CacheWrapper.new 0 1)).1
      (by decide),
   (push_duplicate_noop_no_overwrite [CacheWrapper.new 0 1] (CacheWrapper.new 0 2)).2
      (CacheWrapper.new 0 1) (by decide) (by decide) (by decide)⟩

/-- C5: after `remove k`, `find k` is absent; removing again is a no-op
(idempotent); and removing a key held by no entry changes nothing. -/
theorem remove_absence_idempotent (s : Caches K V) (k : K) :
    find (remove s k) k = none ∧
    remove (remove s k) k = remove s k ∧
    ((∀ e ∈ s, e.key ≠ k) → remove s k = s) := by
  refine ⟨find_remove_self s k, remove_remove s k, fun h => ?_⟩
  unfold remove
  rw [List.filter_eq_self]
  intro c hc
  simp only [decide_eq_true_eq]
  exact h c hc

theorem remove_absence_idempotent_witness :
    (find (remove ([CacheWrapper.new 0 1] : Caches Nat Nat) 0) 0 = none ∧
      remove (remove ([CacheWrapper.new 0 1] : Caches Nat Nat) 0) 0
        = remove ([CacheWrapper.new 0 1] : Caches Nat Nat) 0) ∧
    remove ([CacheWrapper.new 0 1] : Caches Nat Nat) 5 = [CacheWrapper.new 0 1] := by
  have h := remove_absence_idempotent ([CacheWrapper.new 0 1] : Caches Nat Nat) 0
  have h5 := remove_absence_idempotent ([CacheWrapper.new 0 1] : Caches Nat Nat) 5
  exact ⟨⟨h.1, h.2.1⟩, h5.2.2 (by decide)⟩

/-- C7: `find_value` is exactly `find` projected to the value: it yields
`some v` exactly when `find` yields an entry with value v, and `none` exactly
when `find` yields `none`. -/
theorem find_value_eq_find_map (s : Caches K V) (k : K) :
    (∀ v, find_value s k = some v ↔ ∃ e, find s k = some e ∧ e.value = v) ∧
    (find_value s k = none ↔ find s k = none) := by
  have hmap : find_value s k = (find s k).map (fun c => c.value) := rfl
  constructor
  · intro v
    rw [hmap]
    cases find s k with
    | none => simp
    | some e => simp
  · rw [hmap]
    cases find s k with
    | none => simp
    | some e => simp

/-- C9: `rebase_key` replaces exactly the key and keeps the value;
`rebase_value` replaces exactly the value and keeps the key. -/
theorem rebase_key_value_fields (c : CacheWrapper K V) (nk : K) (nv : V) :
    (c.rebase_key nk).key = nk ∧ (c.rebase_key nk).value = c.value ∧
    (c.rebase_value nv).value = nv ∧ (c.rebase_value nv).key = c.key :=
  ⟨rfl, rfl, rfl, rfl⟩

/-- C10: `remove k` keeps every entry whose key differs from k and adds no
entry that was not present before. -/
theorem remove_frame (s : Caches K V) (k : K) :
    (∀ e ∈ s, e.key ≠ k → e ∈ remove s k) ∧
    (∀ e ∈ remove s k, e ∈ s) := by
  constructor
  · intro e he hk
    exact mem_remove.mpr ⟨he, hk⟩
  · intro e he
    exact (mem_remove.mp he).1

theorem remove_frame_witness :
    CacheWrapper.new (1 : Nat) (7 : Nat) ∈ remove [CacheWrapper.new 1 7, CacheWrapper.new 0 1] 0 ∧
    CacheWrapper.new (1 : Nat) (7 : Nat) ∈ ([CacheWrapper.new 1 7, CacheWrapper.new 0 1] : Caches Nat Nat) :=
  ⟨(remove_frame [CacheWrapper.new 1 7, CacheWrapper.new 0 1] 0).1
      (CacheWrapper.new 1 7) (by decide) (by decide),
   (remove_frame [CacheWrapper.new 1 7, CacheWrapper.new 0 1] 0).2
      (CacheWrapper.new 1 7) (by decide)⟩

theorem uniqueKeys_remove {s : Caches K V} (hs : uniqueKeys s) (k : K) :
    uniqueKeys (remove s k) :=
  List.Pairwise.filter _ hs

theorem uniqueKeys_abs {s : Caches K V} (hs : uniqueKeys s) (c : CacheWrapper K V) :
    uniqueKeys (abs s c) := by
  rw [abs_eq_cons]
  refine List.Pairwise.cons (fun b hb => ?_) (uniqueKeys_remove hs c.key)
  exact fun h => (mem_remove.mp hb).2 h.symm

theorem uniqueKeys_runOps_pushfree (ops : List (StoreOp K V)) (s : Caches K V)
    (hs : uniqueKeys s) (hops : ∀ op ∈ ops, op.isPush = false) :
    uniqueKeys (runOps s ops) := by
  induction ops generalizing s with
  | nil => exact hs
  | cons op t ih =>
    have htail : ∀ o ∈ t, o.isPush = false := fun o ho => hops o (List.mem_cons_of_mem _ ho)
    cases op with
    | pushOp c => simpa [StoreOp.isPush] using hops (StoreOp.pushOp c) (List.mem_cons_self _ _)
    | absOp c => exact ih (abs s c) (uniqueKeys_abs hs c) htail
    | removeOp k => exact ih (remove s k) (uniqueKeys_remove hs k) htail

/-- C2 counterexample: from the empty store, the public operation sequence
push (0, 0); push (0, 1) leaves two entries with equal keys, because
`HashSet::insert` deduplicates on the full (key, value) pair, not on the key. -/
theorem push_breaks_uniqueKeys :
    ¬ uniqueKeys (runOps ([] : Caches Nat Nat)
      [StoreOp.pushOp (CacheWrapper.new 0 0), StoreOp.pushOp (CacheWrapper.new 0 1)]) := by
  decide

/-- C2 amended: after each step of a sequence of replace and remove operations
(no bare push) applied to a key-unique store, the collection holds no two
entries with equal keys; a bare push of an entry whose key is present with a
different value can break the invariant. -/
theorem uniqueKeys_pushfree_ops (s : Caches K V) (ops : List (StoreOp K V))
    (hs : uniqueKeys s) (hops : ∀ op ∈ ops, op.isPush = false) :
    ∀ n, uniqueKeys (runOps s (ops.take n)) := by
  intro n
  refine uniqueKeys_runOps_pushfree (ops.take n) s hs (fun o ho => ?_)
  exact hops o ((List.take_sublist n ops).subset ho)

theorem uniqueKeys_pushfree_ops_witness :
    uniqueKeys (runOps ([] : Caches Nat Nat)
      ([StoreOp.absOp (CacheWrapper.new 0 1), StoreOp.absOp (CacheWrapper.new 0 2),
        StoreOp.removeOp 3].take 2)) :=
  uniqueKeys_pushfree_ops []
    [StoreOp.absOp (CacheWrapper.new 0 1), StoreOp.absOp (CacheWrapper.new 0 2),
      StoreOp.removeOp 3] (by decide) (by decide) 2

theorem mem_foldl_push (l : List (CacheWrapper K V)) (s : Caches K V) (e : CacheWrapper K V) :
    e ∈ l.foldl push s ↔ e ∈ s ∨ e ∈ l := by
  induction l generalizing s with
  | nil => simp
  | cons c t ih =>
    rw [List.foldl_cons, ih, mem_push]
    simp
    tauto

/-- C4: starting from a store constructed on an empty file, pushing a list of
distinct-keyed entries, flushing, and loading from the flushed file yields a
collection with exactly the pushed entries as a set. -/
theorem round_trip_durability (entries : List (CacheWrapper K V))
    (hk : entries.Pairwise (fun a b => a.key ≠ b.key)) :
    ∀ c, c ∈ all_items (load_from_blocking
        (some (write (entries.foldl push (load_from_blocking none))))) ↔ c ∈ entries := by
  intro c
  unfold all_items load_from_blocking write
  rw [mem_foldl_push, mem_foldl_push]
  simp

theorem round_trip_durability_witness :
    CacheWrapper.new (0 : Nat) (1 : Nat) ∈ all_items (load_from_blocking
      (some (write ([CacheWrapper.new 0 1, CacheWrapper.new 2 3].foldl push
        (load_from_blocking none))))) :=
  (round_trip_durability [CacheWrapper.new 0 1, CacheWrapper.new 2 3] (by decide)
    (CacheWrapper.new 0 1)).mpr (by decide)

/-- C6: construction with a non-decodable (including empty) file starts from
the empty collection, and decoding an empty entry sequence also yields the
empty collection; construction is total, never a fatal failure. -/
theorem load_decode_failure_empty :
    load_from_blocking (none : Option (List (CacheWrapper K V))) = ([] : Caches K V) ∧
    load_from_blocking (some ([] : List (CacheWrapper K V))) = ([] : Caches K V) :=
  ⟨rfl, rfl⟩

/-- C8 counterexample: the schedule remove 0; find 0; push (0, 2) is a valid
interleaving of the two atomic steps of `abs (0, 2)` with a concurrent
`find 0`, and on the store holding (0, 1) that find observes the intermediate
state: it returns none although key 0 is bound both before the replace and
after it.  The write lock is released between the two steps of `abs`. -/
theorem abs_interleaving_observable :
    IsInterleaving (absSteps (CacheWrapper.new (0 : Nat) (2 : Nat))) [AtomicOp.findA 0]
      [AtomicOp.removeA 0, AtomicOp.findA 0, AtomicOp.pushA (CacheWrapper.new 0 2)] ∧
    (runTrace [CacheWrapper.new (0 : Nat) (1 : Nat)]
      [AtomicOp.removeA 0, AtomicOp.findA 0, AtomicOp.pushA (CacheWrapper.new 0 2)]).2
      = [none] ∧
    find [CacheWrapper.new (0 : Nat) (1 : Nat)] 0 = some (CacheWrapper.new 0 1) ∧
    find (runTrace [CacheWrapper.new (0 : Nat) (1 : Nat)]
      [AtomicOp.removeA 0, AtomicOp.findA 0, AtomicOp.pushA (CacheWrapper.new 0 2)]).1 0
      = some (CacheWrapper.new 0 2) :=
  ⟨IsInterleaving.left (IsInterleaving.right (IsInterleaving.left IsInterleaving.nil)),
   by decide, by decide, by decide⟩

/-- C8 amended: `abs` consists of two atomic steps, remove then push, each
under its own write-lock acquisition; executed without interference the two
steps realize the replace semantics, but the claim that no other operation can
interleave between them does not hold. -/
theorem abs_steps_sequential (s : Caches K V) (c : CacheWrapper K V) :
    runTrace s (absSteps c) = (abs s c, []) :=
  rfl

end MiseryHandler
